import Mathlib

/-!
Shallow embedding of src/your_algo.py (class PlayerAlgorithm).

Prices are modelled as rationals, sizes and positions as integers, order
ids as integers.  Python dictionaries that are iterated in insertion order
(self.open_orders) are modelled as association lists; dictionary update
and deletion are modelled by dictSet / dictDel below.  The per-ticker
dictionaries self.pos_limits / self.mpv built in __init__ are modelled by
lookup functions over the product list (a later duplicate ticker wins,
matching dict-comprehension semantics).  The float("inf") sentinel used
for an absent position limit is modelled as the none case of Option.
-/

namespace QFin

/-- A resting order in the exchange book (base.Rest); only price and size
are relevant to the algorithm. -/
structure Rest where
  price : ℚ
  size : ℤ
deriving DecidableEq

/-- A tradable product (base.Product): ticker, position limit
(none = Python None, which __init__ converts to the unbounded sentinel),
and minimum price variance (tick size; falsy values become 1.0). -/
structure Product where
  ticker : String
  pos_limit : Option ℚ
  mpv : Option ℚ
deriving DecidableEq

/-- The order book passed to send_messages: ticker to (Bids, Asks).
Missing tickers and missing sides are the empty list, matching the
dict.get(..., []) defaults in the source. -/
abbrev Book := String → List Rest × List Rest

/-- An order message payload (base.Order). -/
structure Order where
  ticker : String
  price : ℚ
  size : ℤ
  order_id : ℤ
  agg_dir : String
  bot_name : String
deriving DecidableEq

/-- A message to the exchange: Msg("ORDER", order) or Msg("REMOVE", id). -/
inductive Msg where
  | ORDER (o : Order)
  | REMOVE (order_id : ℤ)
deriving DecidableEq

/-- A completed trade (base.Trade) as read by process_trades. -/
structure Trade where
  ticker : String
  size : ℤ
  agg_bot : String
  agg_dir : String
  agg_order_id : ℤ
  rest_bot : String
  rest_order_id : ℤ
deriving DecidableEq

/-- Value stored in self.open_orders: (direction, size, price). -/
abbrev OpenInfo := String × ℤ × ℚ

/-- The mutable state of a PlayerAlgorithm instance: order-id counter,
open resting orders (insertion-ordered dict), per-ticker position
(total function, matching .get(ticker, 0) reads), and timestep counter. -/
structure AlgoState where
  idx : ℤ
  open_orders : List (ℤ × OpenInfo)
  position : String → ℤ
  timestamp_num : ℕ

/-- self.name, set in __init__. -/
def botName : String := "MarketMakerBot"

/-- self.base_spread, set in __init__. -/
def base_spread : ℚ := 1

/-- self.skew_factor, set in __init__. -/
def skew_factor : ℚ := 1/2

/-- self.default_price, set in __init__. -/
def default_price : ℚ := 1000

/-- self.default_order_size, set in __init__. -/
def default_order_size : ℤ := 5

/-- Python dict assignment d[k] = v on an insertion-ordered association
list: overwrite in place if the key is present, else append. -/
def dictSet {α : Type} (l : List (ℤ × α)) (k : ℤ) (v : α) : List (ℤ × α) :=
  if l.any (fun kv => kv.1 == k) then
    l.map (fun kv => if kv.1 == k then (k, v) else kv)
  else l ++ [(k, v)]

/-- Python del d[k] on an association list with unique keys. -/
def dictDel {α : Type} (l : List (ℤ × α)) (k : ℤ) : List (ℤ × α) :=
  l.filter (fun kv => !(kv.1 == k))

/-- Lookup in a dict comprehension built over the product list
(a later product with the same ticker overwrites an earlier one). -/
def dictLookup (products : List Product) (t : String) : Option Product :=
  (products.filter (fun p => p.ticker == t)).getLast?

/-- self.pos_limits lookup with .get(ticker, float("inf")); the result
none stands for the unbounded sentinel float("inf") (an absent product,
a None pos_limit, and the inf default all behave identically downstream). -/
def pos_limits (products : List Product) (t : String) : Option ℚ :=
  match dictLookup products t with
  | none => none
  | some p => p.pos_limit

/-- The value stored in self.mpv for a product:
p.mpv if p.mpv else 1.0 (None and 0.0 are falsy). -/
def storedMpv (p : Product) : ℚ :=
  match p.mpv with
  | none => 1
  | some m => if m = 0 then 1 else m

/-- self.mpv lookup with .get(ticker, 1.0). -/
def mpvOf (products : List Product) (t : String) : ℚ :=
  match dictLookup products t with
  | none => 1
  | some p => storedMpv p

/-- Lines 158-170: midprice selection from the best bid / best ask,
falling back to self.default_price when the book is empty. -/
def computeMid (bids asks : List Rest) : ℚ :=
  match bids, asks with
  | b :: _, a :: _ => (b.price + a.price) / 2
  | b :: _, [] => b.price
  | [], a :: _ => a.price
  | [], [] => default_price

/-- Lines 176-181: position-based skew.  skew = 0.0 unless the limit is
truthy (nonzero) and not float("inf"), in which case
skew = (pos / limit) * self.skew_factor. -/
def computeSkew (pos : ℤ) (limit : Option ℚ) : ℚ :=
  match limit with
  | none => 0
  | some l => if l ≠ 0 then ((pos : ℚ) / l) * skew_factor else 0

/-- Line 184: half_spread = self.base_spread / 2.0. -/
def half_spread : ℚ := base_spread / 2

/-- Line 185: buy_price = mid - half_spread - skew. -/
def rawBuyPrice (mid skew : ℚ) : ℚ := mid - half_spread - skew

/-- Line 186: sell_price = mid + half_spread - skew. -/
def rawSellPrice (mid skew : ℚ) : ℚ := mid + half_spread - skew

/-- Python round() on an exact rational: nearest integer, ties to even. -/
def pyRound (q : ℚ) : ℤ :=
  let f := ⌊q⌋
  if q - f < 1/2 then f
  else if q - f > 1/2 then f + 1
  else if f % 2 = 0 then f else f + 1

/-- Lines 190-191: round(price / tick) * tick. -/
def tickAlign (price tick : ℚ) : ℚ := (pyRound (price / tick) : ℚ) * tick

/-- Lines 195-201: order size policy.  Start from default_order_size;
only when the limit is finite and positive, halve (floor, min 1) above
80 percent of the limit and force 1 above 90 percent. -/
def computeSize (pos : ℤ) (limit : Option ℚ) : ℤ :=
  match limit with
  | none => default_order_size
  | some l =>
    if 0 < l then
      let size1 :=
        if ((|pos| : ℤ) : ℚ) > 8/10 * l then max 1 (Int.fdiv default_order_size 2)
        else default_order_size
      if ((|pos| : ℤ) : ℚ) > 9/10 * l then 1 else size1
    else default_order_size

/-- The buy and sell orders built for one product in the loop body of
send_messages (lines 153-212), given the position map and the current
order-id counter i: the buy order gets id i, the sell order id i + 1
(create_order increments self.idx after each order). -/
def quotePair (products : List Product) (book : Book) (position : String → ℤ)
    (i : ℤ) (p : Product) : Order × Order :=
  let ticker := p.ticker
  let bids := (book ticker).1
  let asks := (book ticker).2
  let mid := computeMid bids asks
  let pos := position ticker
  let limit := pos_limits products ticker
  let skew := computeSkew pos limit
  let tick := mpvOf products ticker
  let buy_price := tickAlign (rawBuyPrice mid skew) tick
  let sell_price := tickAlign (rawSellPrice mid skew) tick
  let size := computeSize pos limit
  (⟨ticker, buy_price, size, i, "Buy", botName⟩,
   ⟨ticker, sell_price, size, i + 1, "Sell", botName⟩)

/-- One iteration of the product loop in send_messages: emit the buy
message then the sell message, record both in open_orders (dict
assignment), and advance the id counter by two. -/
def quoteStep (products : List Product) (book : Book) (s : AlgoState)
    (p : Product) : AlgoState × List Msg :=
  let q := quotePair products book s.position s.idx p
  ({ s with
      idx := s.idx + 2,
      open_orders :=
        dictSet (dictSet s.open_orders q.1.order_id (q.1.agg_dir, q.1.size, q.1.price))
          q.2.order_id (q.2.agg_dir, q.2.size, q.2.price) },
   [Msg.ORDER q.1, Msg.ORDER q.2])

/-- The product loop of send_messages over a remaining product list. -/
def quoteLoop (products : List Product) (book : Book) :
    List Product → AlgoState → AlgoState × List Msg
  | [], s => (s, [])
  | p :: ps, s =>
    let r := quoteStep products book s p
    let r2 := quoteLoop products book ps r.1
    (r2.1, r.2 ++ r2.2)

/-- send_messages (lines 129-216): cancel every open order (emitting one
REMOVE per key, in insertion order, and clearing the dict), then run the
quoting loop over all products, then increment timestamp_num. -/
def send_messages (products : List Product) (book : Book) (s : AlgoState) :
    AlgoState × List Msg :=
  let cancels := s.open_orders.map (fun kv => Msg.REMOVE kv.1)
  let s0 : AlgoState := { s with open_orders := [] }
  let r := quoteLoop products book products s0
  ({ r.1 with timestamp_num := r.1.timestamp_num + 1 }, cancels ++ r.2)

/-- setPos models self.position[ticker] = v. -/
def setPos (pos : String → ℤ) (t : String) (v : ℤ) : String → ℤ :=
  fun x => if x = t then v else pos x

/-- The body of the trade loop in process_trades (lines 228-253) for one
trade: the aggressor branch first, then the resting branch on the
resulting state. -/
def processTrade (s : AlgoState) (tr : Trade) : AlgoState :=
  let s1 :=
    if tr.agg_bot = botName then
      let pos1 :=
        if tr.agg_dir = "Buy" then
          setPos s.position tr.ticker (s.position tr.ticker + tr.size)
        else
          setPos s.position tr.ticker (s.position tr.ticker - tr.size)
      let oo1 :=
        if s.open_orders.any (fun kv => kv.1 == tr.agg_order_id) then
          dictDel s.open_orders tr.agg_order_id
        else s.open_orders
      { s with position := pos1, open_orders := oo1 }
    else s
  if tr.rest_bot = botName then
    let pos2 :=
      if tr.agg_dir = "Buy" then
        setPos s1.position tr.ticker (s1.position tr.ticker - tr.size)
      else
        setPos s1.position tr.ticker (s1.position tr.ticker + tr.size)
    let oo2 :=
      if s1.open_orders.any (fun kv => kv.1 == tr.rest_order_id) then
        dictDel s1.open_orders tr.rest_order_id
      else s1.open_orders
    { s1 with position := pos2, open_orders := oo2 }
  else s1

/-- process_trades (lines 218-253): fold the per-trade update over the
trade list. -/
def process_trades (s : AlgoState) (trades : List Trade) : AlgoState :=
  trades.foldl processTrade s

/-- The state right after __init__: idx 0, no open orders, zero position
for every ticker, timestep 0. -/
def initAlgo : AlgoState :=
  { idx := 0, open_orders := [], position := fun _ => 0, timestamp_num := 0 }

/-- set_idx (lines 84-94). -/
def set_idx (s : AlgoState) (i : ℤ) : AlgoState := { s with idx := i }

/-- A whole session: one send_messages call per book in the list, with
no trades in between; returns the final state and all emitted messages
in emission order. -/
def runSession (products : List Product) : List Book → AlgoState → AlgoState × List Msg
  | [], s => (s, [])
  | b :: bs, s =>
    let r := send_messages products b s
    let r2 := runSession products bs r.1
    (r2.1, r.2 ++ r2.2)

/-- The order ids carried by the ORDER messages of a message list, in
emission order (REMOVE messages carry no new id). -/
def orderIds : List Msg → List ℤ
  | [] => []
  | Msg.ORDER o :: rest => o.order_id :: orderIds rest
  | Msg.REMOVE _ :: rest => orderIds rest

/-- The list i, i+1, ..., i+n-1 of n consecutive integers. -/
def idList : ℤ → ℕ → List ℤ
  | _, 0 => []
  | i, n + 1 => i :: idList (i + 1) n

/-- The two open_orders entries recorded for one quoted pair. -/
def openEntries (q : Order × Order) : List (ℤ × OpenInfo) :=
  [(q.1.order_id, (q.1.agg_dir, q.1.size, q.1.price)),
   (q.2.order_id, (q.2.agg_dir, q.2.size, q.2.price))]

/-- The two messages emitted for one quoted pair. -/
def orderMsgs (q : Order × Order) : List Msg :=
  [Msg.ORDER q.1, Msg.ORDER q.2]

/-- The quoted order pairs for a product list, starting at id i. -/
def quotePairs (products : List Product) (book : Book) (position : String → ℤ) :
    ℤ → List Product → List (Order × Order)
  | _, [] => []
  | i, p :: ps =>
    quotePair products book position i p :: quotePairs products book position (i + 2) ps

/-! ### Basic lemmas -/

lemma dictSet_fresh {α : Type} (l : List (ℤ × α)) (k : ℤ) (v : α)
    (h : ∀ kv ∈ l, kv.1 ≠ k) : dictSet l k v = l ++ [(k, v)] := by
  unfold dictSet
  rw [if_neg]
  simp only [List.any_eq_true, beq_iff_eq, not_exists]
  intro kv hkv
  exact h kv hkv.1 hkv.2

lemma dictDel_of_any_false {α : Type} (l : List (ℤ × α)) (k : ℤ)
    (h : l.any (fun kv => kv.1 == k) = false) : dictDel l k = l := by
  unfold dictDel
  apply List.filter_eq_self.mpr
  intro kv hkv
  simp only [List.any_eq_false, beq_iff_eq] at h
  simp [h kv hkv]

lemma quotePair_fst_id (products : List Product) (book : Book)
    (position : String → ℤ) (i : ℤ) (p : Product) :
    (quotePair products book position i p).1.order_id = i := rfl

lemma quotePair_snd_id (products : List Product) (book : Book)
    (position : String → ℤ) (i : ℤ) (p : Product) :
    (quotePair products book position i p).2.order_id = i + 1 := rfl

lemma quotePair_fst_dir (products : List Product) (book : Book)
    (position : String → ℤ) (i : ℤ) (p : Product) :
    (quotePair products book position i p).1.agg_dir = "Buy" := rfl

lemma quotePair_snd_dir (products : List Product) (book : Book)
    (position : String → ℤ) (i : ℤ) (p : Product) :
    (quotePair products book position i p).2.agg_dir = "Sell" := rfl

lemma quotePair_fst_ticker (products : List Product) (book : Book)
    (position : String → ℤ) (i : ℤ) (p : Product) :
    (quotePair products book position i p).1.ticker = p.ticker := rfl

lemma quotePair_snd_ticker (products : List Product) (book : Book)
    (position : String → ℤ) (i : ℤ) (p : Product) :
    (quotePair products book position i p).2.ticker = p.ticker := rfl

lemma quoteStep_fst (products : List Product) (book : Book) (s : AlgoState)
    (p : Product) :
    (quoteStep products book s p).1 =
      { s with
        idx := s.idx + 2,
        open_orders :=
          dictSet
            (dictSet s.open_orders
              (quotePair products book s.position s.idx p).1.order_id
              ((quotePair products book s.position s.idx p).1.agg_dir,
               (quotePair products book s.position s.idx p).1.size,
               (quotePair products book s.position s.idx p).1.price))
            (quotePair products book s.position s.idx p).2.order_id
            ((quotePair products book s.position s.idx p).2.agg_dir,
             (quotePair products book s.position s.idx p).2.size,
             (quotePair products book s.position s.idx p).2.price) } := rfl

lemma quoteStep_snd (products : List Product) (book : Book) (s : AlgoState)
    (p : Product) :
    (quoteStep products book s p).2 = orderMsgs (quotePair products book s.position s.idx p) := rfl

lemma quotePairs_cons (products : List Product) (book : Book)
    (position : String → ℤ) (i : ℤ) (p : Product) (ps : List Product) :
    quotePairs products book position i (p :: ps) =
      quotePair products book position i p :: quotePairs products book position (i + 2) ps := rfl

/-! ### idList lemmas -/

lemma idList_length (i : ℤ) (n : ℕ) : (idList i n).length = n := by
  induction n generalizing i with
  | zero => rfl
  | succ n ih => simp [idList, ih]

lemma idList_append (i : ℤ) (m n : ℕ) :
    idList i (m + n) = idList i m ++ idList (i + m) n := by
  induction m generalizing i with
  | zero => simp [idList]
  | succ m ih =>
    have h1 : m + 1 + n = (m + n) + 1 := by omega
    rw [h1]
    show i :: idList (i + 1) (m + n) = (i :: idList (i + 1) m) ++ idList (i + (m + 1 : ℕ)) n
    rw [ih (i + 1)]
    have harg : i + 1 + (m : ℤ) = i + ((m + 1 : ℕ) : ℤ) := by push_cast; ring
    rw [List.cons_append, harg]

lemma idList_mem_lb (i : ℤ) (n : ℕ) : ∀ j ∈ idList i n, i ≤ j := by
  induction n generalizing i with
  | zero => intro j hj; simp [idList] at hj
  | succ n ih =>
    intro j hj
    simp only [idList, List.mem_cons] at hj
    rcases hj with rfl | hj
    · exact le_refl j
    · have := ih (i + 1) j hj
      omega

lemma idList_pairwise (i : ℤ) (n : ℕ) : List.Pairwise (· < ·) (idList i n) := by
  induction n generalizing i with
  | zero => exact List.Pairwise.nil
  | succ n ih =>
    refine List.pairwise_cons.mpr ⟨?_, ih (i + 1)⟩
    intro j hj
    have := idList_mem_lb (i + 1) n j hj
    omega

/-! ### quotePairs shape lemmas -/

lemma quotePairs_length (products : List Product) (book : Book)
    (position : String → ℤ) : ∀ (ps : List Product) (i : ℤ),
    (quotePairs products book position i ps).length = ps.length := by
  intro ps
  induction ps with
  | nil => intro i; rfl
  | cons p ps ih => intro i; simp [quotePairs_cons, ih]

lemma quotePairs_map_dirs (products : List Product) (book : Book)
    (position : String → ℤ) : ∀ (ps : List Product) (i : ℤ),
    (quotePairs products book position i ps).map (fun q => (q.1.agg_dir, q.2.agg_dir))
      = List.replicate ps.length ("Buy", "Sell") := by
  intro ps
  induction ps with
  | nil => intro i; rfl
  | cons p ps ih =>
    intro i
    simp only [quotePairs_cons, List.map_cons, List.length_cons, List.replicate_succ, ih]
    rfl

lemma quotePairs_map_tickers (products : List Product) (book : Book)
    (position : String → ℤ) : ∀ (ps : List Product) (i : ℤ),
    (quotePairs products book position i ps).map (fun q => (q.1.ticker, q.2.ticker))
      = ps.map (fun p => (p.ticker, p.ticker)) := by
  intro ps
  induction ps with
  | nil => intro i; rfl
  | cons p ps ih =>
    intro i
    simp only [quotePairs_cons, List.map_cons, ih]
    rfl

lemma quotePairs_openEntries_keys (products : List Product) (book : Book)
    (position : String → ℤ) : ∀ (ps : List Product) (i : ℤ),
    (((quotePairs products book position i ps).flatMap openEntries).map (fun kv => kv.1))
      = idList i (2 * ps.length) := by
  intro ps
  induction ps with
  | nil => intro i; rfl
  | cons p ps ih =>
    intro i
    rw [quotePairs_cons, List.flatMap_cons, List.map_append, ih (i + 2)]
    have h2 : 2 * (p :: ps).length = 2 * ps.length + 1 + 1 := by
      simp only [List.length_cons]; omega
    rw [h2]
    have ha : i + 1 + 1 = i + 2 := by ring
    show i :: (i + 1) :: idList (i + 2) (2 * ps.length)
        = i :: (i + 1) :: idList (i + 1 + 1) (2 * ps.length)
    rw [ha]

lemma quotePairs_orderIds (products : List Product) (book : Book)
    (position : String → ℤ) : ∀ (ps : List Product) (i : ℤ),
    orderIds ((quotePairs products book position i ps).flatMap orderMsgs)
      = idList i (2 * ps.length) := by
  intro ps
  induction ps with
  | nil => intro i; rfl
  | cons p ps ih =>
    intro i
    rw [quotePairs_cons, List.flatMap_cons]
    have hstep : orderIds (orderMsgs (quotePair products book position i p) ++
          (quotePairs products book position (i + 2) ps).flatMap orderMsgs)
        = i :: (i + 1) :: orderIds ((quotePairs products book position (i + 2) ps).flatMap orderMsgs) := rfl
    rw [hstep, ih (i + 2)]
    have h2 : 2 * (p :: ps).length = 2 * ps.length + 1 + 1 := by
      simp only [List.length_cons]; omega
    rw [h2]
    have ha : i + 1 + 1 = i + 2 := by ring
    show i :: (i + 1) :: idList (i + 2) (2 * ps.length)
        = i :: (i + 1) :: idList (i + 1 + 1) (2 * ps.length)
    rw [ha]

lemma orderIds_append : ∀ l1 l2 : List Msg,
    orderIds (l1 ++ l2) = orderIds l1 ++ orderIds l2 := by
  intro l1
  induction l1 with
  | nil => intro l2; rfl
  | cons m rest ih =>
    intro l2
    cases m with
    | ORDER o => simp [orderIds, List.cons_append, ih]
    | REMOVE k => simp [orderIds, List.cons_append, ih]

lemma orderIds_removes (l : List (ℤ × OpenInfo)) :
    orderIds (l.map (fun kv => Msg.REMOVE kv.1)) = [] := by
  induction l with
  | nil => rfl
  | cons kv rest ih => simpa [orderIds] using ih

/-! ### The quoting loop and send_messages -/

lemma quoteLoop_spec (products : List Product) (book : Book) :
    ∀ (ps : List Product) (s : AlgoState),
      (∀ kv ∈ s.open_orders, kv.1 < s.idx) →
      (quoteLoop products book ps s).1.idx = s.idx + 2 * ps.length ∧
      (quoteLoop products book ps s).1.position = s.position ∧
      (quoteLoop products book ps s).1.timestamp_num = s.timestamp_num ∧
      (quoteLoop products book ps s).1.open_orders
        = s.open_orders ++ (quotePairs products book s.position s.idx ps).flatMap openEntries ∧
      (quoteLoop products book ps s).2
        = (quotePairs products book s.position s.idx ps).flatMap orderMsgs := by
  intro ps
  induction ps with
  | nil =>
    intro s hf
    refine ⟨by simp [quoteLoop], rfl, rfl, by simp [quoteLoop, quotePairs], rfl⟩
  | cons p ps ih =>
    intro s hf
    set q := quotePair products book s.position s.idx p with hq
    have hq1 : q.1.order_id = s.idx := rfl
    have hq2 : q.2.order_id = s.idx + 1 := rfl
    have hfresh1 : ∀ kv ∈ s.open_orders, kv.1 ≠ q.1.order_id := by
      intro kv hkv
      rw [hq1]
      exact ne_of_lt (hf kv hkv)
    have hopen1 : dictSet s.open_orders q.1.order_id (q.1.agg_dir, q.1.size, q.1.price)
        = s.open_orders ++ [(q.1.order_id, (q.1.agg_dir, q.1.size, q.1.price))] :=
      dictSet_fresh _ _ _ hfresh1
    have hfresh2 : ∀ kv ∈ s.open_orders ++ [(q.1.order_id, (q.1.agg_dir, q.1.size, q.1.price))],
        kv.1 ≠ q.2.order_id := by
      intro kv hkv
      rw [hq2]
      rcases List.mem_append.mp hkv with h | h
      · have := hf kv h; omega
      · have hkv' : kv = (q.1.order_id, (q.1.agg_dir, q.1.size, q.1.price)) := by simpa using h
        rw [hkv']
        show q.1.order_id ≠ s.idx + 1
        rw [hq1]
        omega
    have hopen' : (quoteStep products book s p).1.open_orders = s.open_orders ++ openEntries q := by
      show dictSet (dictSet s.open_orders q.1.order_id (q.1.agg_dir, q.1.size, q.1.price))
            q.2.order_id (q.2.agg_dir, q.2.size, q.2.price)
          = s.open_orders ++ openEntries q
      rw [hopen1, dictSet_fresh _ _ _ hfresh2, List.append_assoc]
      rfl
    have hidx' : (quoteStep products book s p).1.idx = s.idx + 2 := rfl
    have hpos' : (quoteStep products book s p).1.position = s.position := rfl
    have hts' : (quoteStep products book s p).1.timestamp_num = s.timestamp_num := rfl
    have hfresh' : ∀ kv ∈ (quoteStep products book s p).1.open_orders,
        kv.1 < (quoteStep products book s p).1.idx := by
      intro kv hkv
      rw [hopen'] at hkv
      rw [hidx']
      rcases List.mem_append.mp hkv with h | h
      · have := hf kv h; omega
      · simp only [openEntries, List.mem_cons, List.not_mem_nil, or_false] at h
        rcases h with rfl | rfl
        · show q.1.order_id < s.idx + 2
          rw [hq1]; omega
        · show q.2.order_id < s.idx + 2
          rw [hq2]; omega
    obtain ⟨ihidx, ihpos, ihts, ihopen, ihmsgs⟩ := ih (quoteStep products book s p).1 hfresh'
    refine ⟨?_, ?_, ?_, ?_, ?_⟩
    · show (quoteLoop products book ps (quoteStep products book s p).1).1.idx
        = s.idx + 2 * (p :: ps).length
      rw [ihidx, hidx']
      simp only [List.length_cons]
      push_cast
      ring
    · show (quoteLoop products book ps (quoteStep products book s p).1).1.position = s.position
      rw [ihpos, hpos']
    · show (quoteLoop products book ps (quoteStep products book s p).1).1.timestamp_num
        = s.timestamp_num
      rw [ihts, hts']
    · show (quoteLoop products book ps (quoteStep products book s p).1).1.open_orders
        = s.open_orders ++ (quotePairs products book s.position s.idx (p :: ps)).flatMap openEntries
      rw [ihopen, hopen', hpos', hidx', quotePairs_cons, List.flatMap_cons, List.append_assoc, hq]
    · show (quoteStep products book s p).2
          ++ (quoteLoop products book ps (quoteStep products book s p).1).2
        = (quotePairs products book s.position s.idx (p :: ps)).flatMap orderMsgs
      rw [quoteStep_snd, ihmsgs, hpos', hidx', quotePairs_cons, List.flatMap_cons]

lemma send_messages_spec (products : List Product) (book : Book) (s : AlgoState) :
    (send_messages products book s).1.idx = s.idx + 2 * products.length ∧
    (send_messages products book s).1.position = s.position ∧
    (send_messages products book s).1.open_orders
      = (quotePairs products book s.position s.idx products).flatMap openEntries ∧
    (send_messages products book s).2
      = s.open_orders.map (fun kv => Msg.REMOVE kv.1)
        ++ (quotePairs products book s.position s.idx products).flatMap orderMsgs := by
  obtain ⟨h1, h2, h3, h4, h5⟩ :=
    quoteLoop_spec products book products { s with open_orders := [] }
      (by intro kv hkv; simp at hkv)
  refine ⟨?_, ?_, ?_, ?_⟩
  · show (quoteLoop products book products { s with open_orders := [] }).1.idx
      = s.idx + 2 * products.length
    rw [h1]
  · show (quoteLoop products book products { s with open_orders := [] }).1.position = s.position
    rw [h2]
  · show (quoteLoop products book products { s with open_orders := [] }).1.open_orders
      = (quotePairs products book s.position s.idx products).flatMap openEntries
    rw [h4]
    rfl
  · show s.open_orders.map (fun kv => Msg.REMOVE kv.1)
        ++ (quoteLoop products book products { s with open_orders := [] }).2
      = s.open_orders.map (fun kv => Msg.REMOVE kv.1)
        ++ (quotePairs products book s.position s.idx products).flatMap orderMsgs
    rw [h5]

lemma flatMap_openEntries_length (qs : List (Order × Order)) :
    (qs.flatMap openEntries).length = 2 * qs.length := by
  induction qs with
  | nil => rfl
  | cons q qs ih =>
    rw [List.flatMap_cons, List.length_append, ih]
    simp only [openEntries, List.length_cons, List.length_nil]
    omega

/-! ### Rounding lemmas -/

lemma pyRound_close (q : ℚ) : |((pyRound q : ℤ) : ℚ) - q| ≤ 1/2 := by
  have h0 : (⌊q⌋ : ℚ) ≤ q := Int.floor_le q
  have h1 : q < ⌊q⌋ + 1 := Int.lt_floor_add_one q
  simp only [pyRound]
  split_ifs with hA hB hC
  · rw [abs_le]
    constructor <;> linarith
  · push_cast
    rw [abs_le]
    constructor <;> linarith
  · push_neg at hA hB
    rw [abs_le]
    constructor <;> linarith
  · push_neg at hA hB
    push_cast
    rw [abs_le]
    constructor <;> linarith

lemma tickAlign_close (raw tick : ℚ) (h : 0 < tick) :
    |tickAlign raw tick - raw| ≤ tick / 2 := by
  have hne : tick ≠ 0 := ne_of_gt h
  have key : tickAlign raw tick - raw
      = (((pyRound (raw / tick) : ℤ) : ℚ) - raw / tick) * tick := by
    unfold tickAlign
    rw [sub_mul, div_mul_cancel₀ raw hne]
  rw [key, abs_mul, abs_of_pos h]
  have h2 := pyRound_close (raw / tick)
  calc |((pyRound (raw / tick) : ℤ) : ℚ) - raw / tick| * tick
      ≤ (1/2) * tick := mul_le_mul_of_nonneg_right h2 (le_of_lt h)
    _ = tick / 2 := by ring

lemma tickAlign_multiple (raw tick : ℚ) :
    ∃ n : ℤ, tickAlign raw tick = (n : ℚ) * tick :=
  ⟨pyRound (raw / tick), rfl⟩

lemma pyRound_concrete : pyRound (5013/25 : ℚ) = 201 := by
  have hf : ⌊(5013/25 : ℚ)⌋ = 200 := by
    apply Int.floor_eq_iff.mpr
    constructor <;> norm_num
  unfold pyRound
  rw [hf]
  norm_num

lemma tickAlign_concrete : tickAlign (10026/100) (1/2) = 201/2 := by
  have hq : (10026/100 : ℚ) / (1/2) = 5013/25 := by norm_num
  unfold tickAlign
  rw [hq, pyRound_concrete]
  norm_num

/-! ### Claim theorems -/

/-- C1: for every instrument quoted in a send_messages call, the emitted
prices are the tick-aligned raw prices buyPrice = mid - spread/2 - skew and
sellPrice = mid + spread/2 - skew, where skew = (pos / limit) * skewFactor
when the limit is finite and nonzero and skew = 0 when the limit is
unbounded or zero; with position = 0.5 * limit and skewFactor = 0.5 both
raw prices are 0.25 lower than the unskewed quotes. -/
theorem raw_quote_prices :
    (∀ (products : List Product) (book : Book) (position : String → ℤ) (i : ℤ) (p : Product),
        (quotePair products book position i p).1.price
          = tickAlign
              (rawBuyPrice (computeMid (book p.ticker).1 (book p.ticker).2)
                (computeSkew (position p.ticker) (pos_limits products p.ticker)))
              (mpvOf products p.ticker) ∧
        (quotePair products book position i p).2.price
          = tickAlign
              (rawSellPrice (computeMid (book p.ticker).1 (book p.ticker).2)
                (computeSkew (position p.ticker) (pos_limits products p.ticker)))
              (mpvOf products p.ticker)) ∧
    (∀ mid skew : ℚ,
        rawBuyPrice mid skew = mid - base_spread / 2 - skew ∧
        rawSellPrice mid skew = mid + base_spread / 2 - skew) ∧
    (∀ (pos : ℤ) (l : ℚ), l ≠ 0 →
        computeSkew pos (some l) = ((pos : ℚ) / l) * skew_factor) ∧
    (∀ pos : ℤ, computeSkew pos none = 0 ∧ computeSkew pos (some 0) = 0) ∧
    (computeSkew 50 (some 100) = 1/4 ∧
      ∀ mid : ℚ,
        rawBuyPrice mid (computeSkew 50 (some 100)) = rawBuyPrice mid 0 - 1/4 ∧
        rawSellPrice mid (computeSkew 50 (some 100)) = rawSellPrice mid 0 - 1/4) := by
  have hskew : computeSkew 50 (some 100) = 1/4 := by
    simp only [computeSkew]
    norm_num [skew_factor]
  refine ⟨fun products book position i p => ⟨rfl, rfl⟩,
          fun mid skew => ⟨rfl, rfl⟩,
          fun pos l hl => by simp only [computeSkew, if_pos hl],
          fun pos => ⟨rfl, by simp [computeSkew]⟩,
          hskew, fun mid => ?_⟩
  rw [hskew]
  unfold rawBuyPrice rawSellPrice
  constructor <;> ring

theorem raw_quote_prices_witness :
    computeSkew 3 (some 4) = ((3 : ℤ) : ℚ) / 4 * skew_factor :=
  raw_quote_prices.2.2.1 3 4 (by norm_num)

/-- C2: the reference mid price is (bestBid + bestAsk)/2 when both sides
exist, the best bid when only bids exist, the best ask when only asks
exist, and the configured default price when the book is empty; in
particular bid 99 / ask 101 gives 100, only bid 99 gives 99, only ask
101 gives 101. -/
theorem mid_price_rule :
    (∀ (b a : Rest) (bs asks : List Rest),
        computeMid (b :: bs) (a :: asks) = (b.price + a.price) / 2) ∧
    (∀ (b : Rest) (bs : List Rest), computeMid (b :: bs) [] = b.price) ∧
    (∀ (a : Rest) (asks : List Rest), computeMid [] (a :: asks) = a.price) ∧
    computeMid [] [] = default_price ∧
    computeMid [⟨99, 1⟩] [⟨101, 1⟩] = 100 ∧
    computeMid [⟨99, 1⟩] [] = 99 ∧
    computeMid [] [⟨101, 1⟩] = 101 := by
  refine ⟨fun b a bs asks => rfl, fun b bs => rfl, fun a asks => rfl, rfl, ?_, rfl, rfl⟩
  show ((99 : ℚ) + 101) / 2 = 100
  norm_num

/-- C3: with a finite positive limit, the order size is the base size,
halved with floor and minimum 1 when the position magnitude exceeds 80
percent of the limit, and forced to 1 when it exceeds 90 percent, both
thresholds against the same base position; base 5 and limit 100 give
size 5 at position 79, size 2 at 81 and size 1 at 91. -/
theorem size_policy :
    (∀ (products : List Product) (book : Book) (position : String → ℤ) (i : ℤ) (p : Product),
        (quotePair products book position i p).1.size
          = computeSize (position p.ticker) (pos_limits products p.ticker) ∧
        (quotePair products book position i p).2.size
          = computeSize (position p.ticker) (pos_limits products p.ticker)) ∧
    (∀ (pos : ℤ) (l : ℚ), 0 < l →
        computeSize pos (some l) =
          if ((|pos| : ℤ) : ℚ) > 9/10 * l then 1
          else if ((|pos| : ℤ) : ℚ) > 8/10 * l then max 1 (Int.fdiv default_order_size 2)
          else default_order_size) ∧
    computeSize 79 (some 100) = 5 ∧
    computeSize 81 (some 100) = 2 ∧
    computeSize 91 (some 100) = 1 := by
  refine ⟨fun products book position i p => ⟨rfl, rfl⟩,
          fun pos l hl => by simp only [computeSize, if_pos hl],
          ?_, ?_, ?_⟩
  · simp only [computeSize, default_order_size]
    norm_num
  · simp only [computeSize, default_order_size]
    norm_num
    decide
  · simp only [computeSize, default_order_size]
    norm_num

theorem size_policy_witness :
    computeSize 0 (some 100) =
      if ((|(0 : ℤ)| : ℤ) : ℚ) > 9/10 * 100 then 1
      else if ((|(0 : ℤ)| : ℤ) : ℚ) > 8/10 * 100 then max 1 (Int.fdiv default_order_size 2)
      else default_order_size :=
  size_policy.2.1 0 100 (by norm_num)

/-- C6 counterexample: a negative finite position limit is NOT treated as
unbounded by the skew computation; at position 5 and limit -10 the skew
is -(1/4), not 0. -/
theorem negative_limit_skew_cex :
    computeSkew 5 (some (-10)) = -(1/4) ∧ computeSkew 5 (some (-10)) ≠ 0 := by
  have h : computeSkew 5 (some (-10)) = -(1/4) := by
    simp only [computeSkew]
    norm_num [skew_factor]
  exact ⟨h, by rw [h]; norm_num⟩

/-- C6 amended: a zero or absent position limit is treated as unbounded
(skew 0, size equal to the base size, no division); a negative limit
skips size reduction but still computes skew = (pos / limit) *
skewFactor, which is nonzero for a nonzero position; no branch divides
by zero. -/
theorem limit_guard_amended (pos : ℤ) :
    computeSkew pos none = 0 ∧
    computeSkew pos (some 0) = 0 ∧
    computeSize pos none = default_order_size ∧
    computeSize pos (some 0) = default_order_size ∧
    (∀ l : ℚ, l < 0 →
      computeSize pos (some l) = default_order_size ∧
      computeSkew pos (some l) = ((pos : ℚ) / l) * skew_factor) := by
  refine ⟨rfl, by simp [computeSkew], rfl, by simp [computeSize], fun l hl => ⟨?_, ?_⟩⟩
  · simp only [computeSize, if_neg (not_lt.mpr (le_of_lt hl))]
  · simp only [computeSkew, if_pos (ne_of_lt hl)]

theorem limit_guard_amended_witness :
    computeSize 5 (some (-10)) = default_order_size ∧
    computeSkew 5 (some (-10)) = ((5 : ℤ) : ℚ) / (-10) * skew_factor :=
  (limit_guard_amended 5).2.2.2.2 (-10) (by norm_num)

/-- C9: each emitted quote price is the raw price rounded to a multiple
of the instrument's tick under one consistent round-half rule (ties to
even, Python round), so it is a tick multiple within half a tick of the
raw price; a raw price of 100.26 with tick 0.5 rounds to 100.5. -/
theorem tick_alignment :
    (∀ (products : List Product) (book : Book) (position : String → ℤ) (i : ℤ) (p : Product),
        (quotePair products book position i p).1.price
          = tickAlign
              (rawBuyPrice (computeMid (book p.ticker).1 (book p.ticker).2)
                (computeSkew (position p.ticker) (pos_limits products p.ticker)))
              (mpvOf products p.ticker) ∧
        (quotePair products book position i p).2.price
          = tickAlign
              (rawSellPrice (computeMid (book p.ticker).1 (book p.ticker).2)
                (computeSkew (position p.ticker) (pos_limits products p.ticker)))
              (mpvOf products p.ticker)) ∧
    (∀ raw tick : ℚ, 0 < tick →
        (∃ n : ℤ, tickAlign raw tick = (n : ℚ) * tick) ∧
        |tickAlign raw tick - raw| ≤ tick / 2) ∧
    tickAlign (10026/100) (1/2) = 201/2 :=
  ⟨fun _products _book _position _i _p => ⟨rfl, rfl⟩,
   fun raw tick h => ⟨tickAlign_multiple raw tick, tickAlign_close raw tick h⟩,
   tickAlign_concrete⟩

theorem tick_alignment_witness :
    (∃ n : ℤ, tickAlign 1 1 = (n : ℚ) * 1) ∧ |tickAlign 1 1 - 1| ≤ 1 / 2 :=
  tick_alignment.2.1 1 1 (by norm_num)

/-- C4: a send_messages call first emits one cancel per currently-open
order and clears them all, then one buy and one sell order per
instrument in product order, buy before sell, each recorded in the
open-order set under its new id; the returned list is all cancels
followed by all new orders. -/
theorem send_messages_structure (products : List Product) (book : Book) (s : AlgoState) :
    (send_messages products book s).2
      = s.open_orders.map (fun kv => Msg.REMOVE kv.1)
        ++ (quotePairs products book s.position s.idx products).flatMap orderMsgs ∧
    (send_messages products book s).1.open_orders
      = (quotePairs products book s.position s.idx products).flatMap openEntries ∧
    (quotePairs products book s.position s.idx products).length = products.length ∧
    (quotePairs products book s.position s.idx products).map (fun q => (q.1.agg_dir, q.2.agg_dir))
      = List.replicate products.length ("Buy", "Sell") ∧
    (quotePairs products book s.position s.idx products).map (fun q => (q.1.ticker, q.2.ticker))
      = products.map (fun p => (p.ticker, p.ticker)) := by
  obtain ⟨_h1, _h2, h3, h4⟩ := send_messages_spec products book s
  exact ⟨h4, h3, quotePairs_length products book s.position products s.idx,
    quotePairs_map_dirs products book s.position products s.idx,
    quotePairs_map_tickers products book s.position products s.idx⟩

lemma send_messages_orderIds (products : List Product) (book : Book) (s : AlgoState) :
    orderIds (send_messages products book s).2 = idList s.idx (2 * products.length) := by
  obtain ⟨_h1, _h2, _h3, h4⟩ := send_messages_spec products book s
  rw [h4, orderIds_append, orderIds_removes, List.nil_append,
    quotePairs_orderIds products book s.position products s.idx]

/-- C7: across any sequence of send_messages calls, the emitted order
ids are exactly the consecutive counter values starting at the seeded
idx (one per order message, none per cancel, so the final counter is the
start plus the number of order messages), hence pairwise distinct and
strictly increasing in emission order. -/
theorem order_id_uniqueness (products : List Product) (books : List Book) (s : AlgoState) :
    orderIds (runSession products books s).2
      = idList s.idx (2 * products.length * books.length) ∧
    (runSession products books s).1.idx
      = s.idx + 2 * products.length * books.length ∧
    List.Pairwise (· < ·) (orderIds (runSession products books s).2) := by
  have main : ∀ (bs : List Book) (st : AlgoState),
      orderIds (runSession products bs st).2 = idList st.idx (2 * products.length * bs.length) ∧
      (runSession products bs st).1.idx = st.idx + 2 * products.length * bs.length := by
    intro bs
    induction bs with
    | nil =>
      intro st
      refine ⟨?_, ?_⟩ <;> simp [runSession, orderIds, idList]
    | cons b bs ih =>
      intro st
      have hidx1 : (send_messages products b st).1.idx = st.idx + 2 * products.length :=
        (send_messages_spec products b st).1
      obtain ⟨ih1, ih2⟩ := ih (send_messages products b st).1
      have hids1 := send_messages_orderIds products b st
      constructor
      · show orderIds ((send_messages products b st).2
              ++ (runSession products bs (send_messages products b st).1).2)
            = idList st.idx (2 * products.length * (b :: bs).length)
        rw [orderIds_append, hids1, ih1, hidx1]
        have hn : 2 * products.length * (b :: bs).length
            = 2 * products.length + 2 * products.length * bs.length := by
          simp only [List.length_cons]; ring
        rw [hn, idList_append]
        have hc : st.idx + ((2 * products.length : ℕ) : ℤ) = st.idx + 2 * (products.length : ℤ) := by
          push_cast; ring
        rw [hc]
      · show (runSession products bs (send_messages products b st).1).1.idx
            = st.idx + 2 * products.length * (b :: bs).length
        rw [ih2, hidx1]
        simp only [List.length_cons]
        push_cast
        ring
  obtain ⟨h1, h2⟩ := main books s
  refine ⟨h1, h2, ?_⟩
  rw [h1]
  exact idList_pairwise s.idx (2 * products.length * books.length)

lemma send_messages_open_keys (products : List Product) (book : Book) (s : AlgoState) :
    ((send_messages products book s).1.open_orders).map (fun kv => kv.1)
      = idList s.idx (2 * products.length) := by
  obtain ⟨_h1, _h2, h3, _h4⟩ := send_messages_spec products book s
  rw [h3, quotePairs_openEntries_keys products book s.position products s.idx]

lemma send_messages_open_length (products : List Product) (book : Book) (s : AlgoState) :
    ((send_messages products book s).1.open_orders).length = 2 * products.length := by
  have h := congrArg List.length (send_messages_open_keys products book s)
  rw [List.length_map, idList_length] at h
  exact h

/-- C8: after two consecutive send_messages calls with no trades in
between, the open-order set has the same size as after the first call,
namely twice the number of instruments, and its ids are pairwise
distinct and strictly increasing. -/
theorem ledger_idempotence (products : List Product) (book1 book2 : Book) (s : AlgoState) :
    ((send_messages products book2 (send_messages products book1 s).1).1.open_orders).length
      = ((send_messages products book1 s).1.open_orders).length ∧
    ((send_messages products book2 (send_messages products book1 s).1).1.open_orders).length
      = 2 * products.length ∧
    List.Pairwise (· < ·)
      (((send_messages products book2 (send_messages products book1 s).1).1.open_orders).map
        (fun kv => kv.1)) := by
  have hl1 := send_messages_open_length products book1 s
  have hl2 := send_messages_open_length products book2 (send_messages products book1 s).1
  have hk2 := send_messages_open_keys products book2 (send_messages products book1 s).1
  refine ⟨hl2.trans hl1.symm, hl2, ?_⟩
  rw [hk2]
  exact idList_pairwise _ _

/-! ### process_trades lemmas -/

lemma processTrade_agg (s : AlgoState) (tr : Trade)
    (hA : tr.agg_bot = botName) (hR : tr.rest_bot ≠ botName) :
    processTrade s tr =
      { s with
        position :=
          if tr.agg_dir = "Buy" then
            setPos s.position tr.ticker (s.position tr.ticker + tr.size)
          else
            setPos s.position tr.ticker (s.position tr.ticker - tr.size),
        open_orders :=
          if s.open_orders.any (fun kv => kv.1 == tr.agg_order_id) then
            dictDel s.open_orders tr.agg_order_id
          else s.open_orders } := by
  simp only [processTrade]
  rw [if_neg hR, if_pos hA]

lemma processTrade_rest (s : AlgoState) (tr : Trade)
    (hA : tr.agg_bot ≠ botName) (hR : tr.rest_bot = botName) :
    processTrade s tr =
      { s with
        position :=
          if tr.agg_dir = "Buy" then
            setPos s.position tr.ticker (s.position tr.ticker - tr.size)
          else
            setPos s.position tr.ticker (s.position tr.ticker + tr.size),
        open_orders :=
          if s.open_orders.any (fun kv => kv.1 == tr.rest_order_id) then
            dictDel s.open_orders tr.rest_order_id
          else s.open_orders } := by
  simp only [processTrade]
  rw [if_neg hA, if_pos hR]

lemma guarded_del {α : Type} (l : List (ℤ × α)) (k : ℤ) :
    (if l.any (fun kv => kv.1 == k) then dictDel l k else l) = dictDel l k := by
  cases hany : l.any (fun kv => kv.1 == k) with
  | false =>
    simp only [Bool.false_eq_true, if_false]
    exact (dictDel_of_any_false l k hany).symm
  | true => simp

/-- C5: per trade, when this component is the aggressor (and not the
resting side) the position moves by +size for an aggressive Buy and
-size for an aggressive Sell, and the aggressor order id is deleted from
the open set if present; when it is the resting side (and not the
aggressor) the position moves by the opposite sign and the resting order
id is deleted if present; an id absent from the open set leaves the open
set unchanged (no error). -/
theorem trade_updates (s : AlgoState) (tr : Trade) :
    (tr.agg_bot = botName → tr.rest_bot ≠ botName →
      ((tr.agg_dir = "Buy" →
          (processTrade s tr).position tr.ticker = s.position tr.ticker + tr.size) ∧
       (tr.agg_dir = "Sell" →
          (processTrade s tr).position tr.ticker = s.position tr.ticker - tr.size) ∧
       (processTrade s tr).open_orders = dictDel s.open_orders tr.agg_order_id ∧
       ((∀ kv ∈ s.open_orders, kv.1 ≠ tr.agg_order_id) →
          (processTrade s tr).open_orders = s.open_orders))) ∧
    (tr.rest_bot = botName → tr.agg_bot ≠ botName →
      ((tr.agg_dir = "Buy" →
          (processTrade s tr).position tr.ticker = s.position tr.ticker - tr.size) ∧
       (tr.agg_dir = "Sell" →
          (processTrade s tr).position tr.ticker = s.position tr.ticker + tr.size) ∧
       (processTrade s tr).open_orders = dictDel s.open_orders tr.rest_order_id ∧
       ((∀ kv ∈ s.open_orders, kv.1 ≠ tr.rest_order_id) →
          (processTrade s tr).open_orders = s.open_orders))) ∧
    process_trades s [tr] = processTrade s tr := by
  refine ⟨fun hA hR => ?_, fun hR hA => ?_, rfl⟩
  · rw [processTrade_agg s tr hA hR]
    have hopen : (if s.open_orders.any (fun kv => kv.1 == tr.agg_order_id) then
          dictDel s.open_orders tr.agg_order_id
        else s.open_orders) = dictDel s.open_orders tr.agg_order_id :=
      guarded_del s.open_orders tr.agg_order_id
    refine ⟨fun hB => ?_, fun hS => ?_, hopen, fun habs => ?_⟩
    · rw [if_pos hB]
      simp [setPos]
    · have hnb : ¬(tr.agg_dir = "Buy") := by rw [hS]; decide
      rw [if_neg hnb]
      simp [setPos]
    · rw [hopen]
      exact dictDel_of_any_false s.open_orders tr.agg_order_id
        (by simp only [List.any_eq_false, beq_iff_eq]; exact habs)
  · rw [processTrade_rest s tr hA hR]
    have hopen : (if s.open_orders.any (fun kv => kv.1 == tr.rest_order_id) then
          dictDel s.open_orders tr.rest_order_id
        else s.open_orders) = dictDel s.open_orders tr.rest_order_id :=
      guarded_del s.open_orders tr.rest_order_id
    refine ⟨fun hB => ?_, fun hS => ?_, hopen, fun habs => ?_⟩
    · rw [if_pos hB]
      simp [setPos]
    · have hnb : ¬(tr.agg_dir = "Buy") := by rw [hS]; decide
      rw [if_neg hnb]
      simp [setPos]
    · rw [hopen]
      exact dictDel_of_any_false s.open_orders tr.rest_order_id
        (by simp only [List.any_eq_false, beq_iff_eq]; exact habs)

theorem trade_updates_witness :
    (processTrade initAlgo ⟨"UEC", 3, "MarketMakerBot", "Buy", 7, "OtherBot", 9⟩).position "UEC"
      = initAlgo.position "UEC" + 3 :=
  ((trade_updates initAlgo ⟨"UEC", 3, "MarketMakerBot", "Buy", 7, "OtherBot", 9⟩).1
    rfl (by decide)).1 rfl

/-- C10: a trade in which this component is neither the aggressor nor
the resting counterparty leaves the whole state, in particular the
position map and the open-order set, unchanged, whatever its ticker and
order ids. -/
theorem foreign_trade_frame (s : AlgoState) (tr : Trade)
    (h1 : tr.agg_bot ≠ botName) (h2 : tr.rest_bot ≠ botName) :
    processTrade s tr = s ∧ process_trades s [tr] = s := by
  have h : processTrade s tr = s := by
    simp only [processTrade]
    rw [if_neg h2, if_neg h1]
  exact ⟨h, h⟩

theorem foreign_trade_frame_witness :
    processTrade initAlgo ⟨"UEC", 3, "OtherBot", "Buy", 7, "ThirdBot", 9⟩ = initAlgo ∧
    process_trades initAlgo [⟨"UEC", 3, "OtherBot", "Buy", 7, "ThirdBot", 9⟩] = initAlgo :=
  foreign_trade_frame initAlgo ⟨"UEC", 3, "OtherBot", "Buy", 7, "ThirdBot", 9⟩
    (by decide) (by decide)

end QFin
